import Mathlib

/--
Shallow embedding of the dictdiff package (dictdiff/__init__.py).

Python values appearing in the reachable code paths are simple scalars;
the module docstring states values are simple types (int, str, etc.).
`PyVal` models them, keeping Python's cross-type disequality (30 != "").
-/
inductive PyVal where
  | pint : Int → PyVal
  | pstr : String → PyVal
deriving DecidableEq, Repr

/-- A Python dict with string keys, as an insertion-ordered association list.
Keys are strings: the source sorts keys and takes len(k), so string keys are
the operative domain. Uniqueness of keys is the `NodupKeys` predicate below. -/
abbrev Dict := List (String × PyVal)

/-- An instruction tuple (ACTION, KEY, VALUE) as produced by the diff.
The action is a character code; unknown codes are representable because
ApplyDiff must reject them at run time. -/
abbrev Instr := Char × String × PyVal

/-- The key list of a dict, in insertion order (keys of self.A etc.). -/
def keys (d : Dict) : List String := d.map Prod.fst

/-- Python dict lookup d[k]: the value at key k (keys are unique in a dict,
so first match is the match). -/
def dlookup : Dict → String → Option PyVal
  | [], _ => none
  | (k', v) :: rest, k => if k' = k then some v else dlookup rest k

/-- The dict invariant: keys are pairwise distinct. -/
abbrev NodupKeys (d : Dict) : Prop := (keys d).Nodup

/-- Python `del d[k]`: remove the (unique) entry with key k. -/
def ddel : Dict → String → Dict
  | [], _ => []
  | (k', v) :: d, k => if k' = k then ddel d k else (k', v) :: ddel d k

/-- Python `d[k] = v`: overwrite in place if the key exists, else append
(insertion order semantics of Python 3.7+ dicts). -/
def dset : Dict → String → PyVal → Dict
  | [], k, v => [(k, v)]
  | (k', w) :: d, k, v =>
    if k' = k then (k, v) :: d else (k', w) :: dset d k v

/-- Mapping equality: same key set and same values (order irrelevant). -/
def DictEquiv (A B : Dict) : Prop := ∀ k, dlookup A k = dlookup B k

/-- The status strings computed by _ShowDiff and branched on in _ShowRow. -/
inductive Status where
  | Deleted
  | Added
  | Unchanged
  | Different
deriving DecidableEq, Repr

/-- Python str.lower() on the operator's input (ASCII case folding, which is
what the single-letter menu inputs exercise). -/
def lowerStr (s : String) : String := String.mk (s.data.map Char.toLower)

/--
One iteration of the input loop at the bottom of DictDiff._ShowRow:
given the key's status, the original left/right values (`orig_left`,
`orig_right` in the source), the operator's raw input `which` and the raw
text `newval` entered at the "Enter new value:" sub-prompt, produce
`some r` when the input is recognized (where `r` is the instruction
returned, `none` meaning the Python function returns None), and `none`
when the input is unrecognized and the loop repeats.

Branch structure mirrors the source: the Unchanged status accepts
c/empty, n, d; every other status accepts l, r, n, d, with the l/r
meaning dispatched on the status.
-/
def showRowDecide (status : Status) (k : String) (origLeft origRight : PyVal)
    (which newval : String) : Option (Option Instr) :=
  match status with
  | Status.Unchanged =>
    if lowerStr which = "c" ∨ which.length = 0 then some (some ('k', k, origLeft))
    else if lowerStr which = "n" then some (some ('e', k, PyVal.pstr newval))
    else if lowerStr which = "d" then some (some ('d', k, origLeft))
    else none
  | _ =>
    if lowerStr which = "l" then
      some (match status with
        | Status.Deleted => some ('k', k, origLeft)
        | Status.Added => none
        | _ => some ('k', k, origLeft))
    else if lowerStr which = "r" then
      some (some (match status with
        | Status.Deleted => ('d', k, origRight)
        | Status.Added => ('a', k, origRight)
        | _ => ('e', k, origRight)))
    else if lowerStr which = "n" then some (some ('e', k, PyVal.pstr newval))
    else if lowerStr which = "d" then some (some ('d', k, origLeft))
    else none

/-- The input _ShowRow actually branches on: with autoaccept the source
forces 'c' for Unchanged and 'r' otherwise; interactively it is the
operator's input. -/
def rowWhich (autoaccept : Bool) (status : Status) (which : String) : String :=
  if autoaccept then (if status = Status.Unchanged then "c" else "r") else which

/-- Resolution of one key: _ShowRow(k, ..., left, right, status, False,
autoaccept), with the operator's inputs supplied by the oracles `wf`
(per-key choice) and `nf` (per-key "Enter new value:" text). Outer `none`
models the nonterminating re-prompt on an input the loop never accepts. -/
def resolveKey (autoaccept : Bool) (wf nf : String → String) (status : Status)
    (k : String) (l r : PyVal) : Option (Option Instr) :=
  showRowDecide status k l r (rowWhich autoaccept status (wf k)) (nf k)

/-- One `for k in group:` loop of _ShowDiff: resolve each key in order and
append the non-None results (`if zz != None: ret.append(zz)`). -/
def resolveGroup (f : String → Option (Option Instr)) : List String → Option (List Instr)
  | [] => some []
  | k :: ks =>
    match f k with
    | none => none
    | some oi =>
      match resolveGroup f ks with
      | none => none
      | some rest => some (oi.elim rest (fun i => i :: rest))

/-- Lexicographic comparison of char lists by code point, structurally
recursive so that comparisons of concrete keys compute. -/
def charListLe : List Char → List Char → Bool
  | [], _ => true
  | _ :: _, [] => false
  | a :: as, b :: bs => if a < b then true else if b < a then false else charListLe as bs

/-- Python string comparison a <= b (lexicographic by code point), as used
by sorted() on keys. -/
def strLe (a b : String) : Bool := charListLe a.data b.data

/-- Python sorted() over a collection of keys. -/
def sortStr (l : List String) : List String :=
  l.insertionSort (fun x y => strLe x y = true)

/-- sorted(a_keys.difference(b_keys)) — the Deleted group (a_has). -/
def sortedOnlyLeft (A B : Dict) : List String :=
  sortStr ((keys A).filter (fun k => decide (¬ k ∈ keys B)))

/-- sorted(b_keys.difference(a_keys)) — the Added group (b_has). -/
def sortedOnlyRight (A B : Dict) : List String :=
  sortStr ((keys B).filter (fun k => decide (¬ k ∈ keys A)))

/-- sorted(a_keys.intersection(b_keys)) — the common group. -/
def sortedCommon (A B : Dict) : List String :=
  sortStr ((keys A).filter (fun k => decide (k ∈ keys B)))

/-- One Deleted-group iteration: _ShowRow(k, maxkeylen, self.A[k], "",
"Deleted", False, autoaccept). The right value shown (and recorded as
orig_right) is the empty string. -/
def delRow (A : Dict) (autoaccept : Bool) (wf nf : String → String)
    (k : String) : Option (Option Instr) :=
  match dlookup A k with
  | some v => resolveKey autoaccept wf nf Status.Deleted k v (PyVal.pstr "")
  | none => none

/-- One Added-group iteration: _ShowRow(k, maxkeylen, "", self.B[k],
"Added", False, autoaccept). -/
def addRow (B : Dict) (autoaccept : Bool) (wf nf : String → String)
    (k : String) : Option (Option Instr) :=
  match dlookup B k with
  | some v => resolveKey autoaccept wf nf Status.Added k (PyVal.pstr "") v
  | none => none

/-- One common-group iteration: status is "Unchanged" when
self.A[k] == self.B[k] and "Different" otherwise. -/
def commonRow (A B : Dict) (autoaccept : Bool) (wf nf : String → String)
    (k : String) : Option (Option Instr) :=
  match dlookup A k, dlookup B k with
  | some va, some vb =>
    resolveKey autoaccept wf nf
      (if va = vb then Status.Unchanged else Status.Different) k va vb
  | _, _ => none

/--
DictDiff._ShowDiff for one full pass: empty-input early return, then the
three key groups in order Deleted, Added, common, collecting the non-None
resolutions. Display calls are the out-of-scope Presenter. `some l` is a
terminating pass returning instruction list l; `none` models a pass in
which some key's input loop never receives a recognized input.
-/
def ShowDiffRun (A B : Dict) (autoaccept : Bool) (wf nf : String → String) :
    Option (List Instr) :=
  if keys A = [] ∧ keys B = [] then some []
  else
    match resolveGroup (delRow A autoaccept wf nf) (sortedOnlyLeft A B),
          resolveGroup (addRow B autoaccept wf nf) (sortedOnlyRight A B),
          resolveGroup (commonRow A B autoaccept wf nf) (sortedCommon A B) with
    | some ds, some adds, some cs => some (ds ++ adds ++ cs)
    | _, _, _ => none

/-- DictDiff.AutoDiff: ShowDiff with autoaccept=True, which saves the single
pass unconditionally (the outer save/redo prompt is forced to 's'). The
oracles are irrelevant under autoaccept; the pass always terminates, so the
getD default is never reached. -/
def AutoDiff (A B : Dict) : List Instr :=
  (ShowDiffRun A B true (fun _ => "") (fun _ => "")).getD []

/-- DictDiff.WasChanged: any instruction whose action is not 'k'. -/
def WasChanged (props : List Instr) : Bool :=
  props.any (fun p => decide (¬ p.1 = 'k'))

/-- The distinct raise sites of DictDiff.ApplyDiff (all KeyError in Python,
with distinguishing messages): the four permission refusals (tagged by the
action character), deletion of an absent key, and an unknown action code. -/
inductive ApplyErr where
  | permissionDenied : Char → ApplyErr
  | keyNotFound : String → ApplyErr
  | unrecognized : Char → ApplyErr
deriving DecidableEq, Repr

/-- One iteration of the instruction loop in DictDiff.ApplyDiff, acting on
the working copy `ret`. Branch order and the permission-check-before-action
order follow the source. -/
def applyStep (allowAdd allowDelete allowChange allowKeep : Bool)
    (ret : Dict) (d : Instr) : Except ApplyErr Dict :=
  if d.1 = 'd' then
    if allowDelete = false then Except.error (ApplyErr.permissionDenied 'd')
    else if d.2.1 ∈ keys ret then Except.ok (ddel ret d.2.1)
    else Except.error (ApplyErr.keyNotFound d.2.1)
  else if d.1 = 'a' then
    if allowAdd = false then Except.error (ApplyErr.permissionDenied 'a')
    else Except.ok (dset ret d.2.1 d.2.2)
  else if d.1 = 'k' then
    if allowKeep = false then Except.error (ApplyErr.permissionDenied 'k')
    else Except.ok ret
  else if d.1 = 'e' then
    if allowChange = false then Except.error (ApplyErr.permissionDenied 'e')
    else Except.ok (dset ret d.2.1 d.2.2)
  else Except.error (ApplyErr.unrecognized d.1)

/-- The instruction loop of ApplyDiff: a raise aborts the remaining
instructions. -/
def applyList (aa ad ac ak : Bool) : Dict → List Instr → Except ApplyErr Dict
  | ret, [] => Except.ok ret
  | ret, d :: ds =>
    match applyStep aa ad ac ak ret d with
    | Except.error e => Except.error e
    | Except.ok r => applyList aa ad ac ak r ds

/-- DictDiff.ApplyDiff(src, diff, allowAdd, allowDelete, allowChange,
allowKeep): copy src, return None (modelled as ok none) when every
instruction is 'k', otherwise run the loop and return the modified copy. -/
def ApplyDiff (src : Dict) (diff : List Instr)
    (allowAdd allowDelete allowChange allowKeep : Bool) :
    Except ApplyErr (Option Dict) :=
  if diff.all (fun d => decide (d.1 = 'k')) then Except.ok none
  else (applyList allowAdd allowDelete allowChange allowKeep src diff).map some

/-- Arguments acceptable to the DictDiff constructor: Python None, a dict,
or any other object (which `type(x) is not dict` rejects). -/
inductive PyArg where
  | pynone : PyArg
  | pydict : Dict → PyArg
  | other : PyArg
deriving DecidableEq

/-- Which of the two TypeError raise sites in DictDiff.__init__ fired. -/
inductive InitErr where
  | first
  | second
deriving DecidableEq, Repr

/-- The `if a == None: a = {}` defaulting at the top of DictDiff.__init__. -/
def normArg (a : PyArg) : PyArg :=
  if a = PyArg.pynone then PyArg.pydict [] else a

/-- DictDiff.__init__(a, b): default None to {}, then require
`type(a) is dict` (first) and `type(b) is dict` (second); on success the
constructed object holds the two dicts. -/
def DictDiffInit (a b : PyArg) : Except InitErr (Dict × Dict) :=
  match normArg a with
  | PyArg.pydict da =>
    match normArg b with
    | PyArg.pydict db => Except.ok (da, db)
    | _ => Except.error InitErr.second
  | _ => Except.error InitErr.first

/-- A tiny object heap mapping Python object identities to dict contents,
used to state that ApplyDiff mutates only its working copy. -/
abbrev Heap := List (Nat × Dict)

/-- Heap read at an object identity. -/
def heapGet : Heap → Nat → Option Dict
  | [], _ => none
  | (j, d) :: rest, i => if j = i then some d else heapGet rest i

/-- In-place mutation of the object at identity i. -/
def heapSet (h : Heap) (i : Nat) (d : Dict) : Heap :=
  h.map (fun p => if p.1 = i then (i, d) else p)

/-- Largest identity present in the heap. -/
def maxId (h : Heap) : Nat := h.foldr (fun p m => max p.1 m) 0

/-- An identity unused by the heap, for the fresh object `ret = dict(src)`
allocates. -/
def freshId (h : Heap) : Nat := maxId h + 1

/-- The ApplyDiff instruction loop at heap level: each iteration reads the
working copy, runs one applyStep, and writes the result back to the working
copy's cell only. -/
def applyLoopHeap (aa ad ac ak : Bool) :
    Heap → Nat → List Instr → Heap × Option ApplyErr
  | h, _, [] => (h, none)
  | h, retId, d :: ds =>
    match applyStep aa ad ac ak ((heapGet h retId).getD []) d with
    | Except.error e => (h, some e)
    | Except.ok r => applyLoopHeap aa ad ac ak (heapSet h retId r) retId ds

/-- DictDiff.ApplyDiff at heap level: `ret = dict(src)` allocates a fresh
object holding a copy of src's contents; the no-change check then may
return None; otherwise the loop mutates only ret's cell and the result is
ret's identity (or the error that aborted the loop). -/
def ApplyDiffHeap (h : Heap) (srcId : Nat) (diff : List Instr)
    (aa ad ac ak : Bool) : Heap × Except ApplyErr (Option Nat) :=
  match heapGet h srcId with
  | none => (h, Except.error (ApplyErr.keyNotFound ""))
  | some src =>
    let retId := freshId h
    let h1 := (retId, src) :: h
    if diff.all (fun d => decide (d.1 = 'k')) then (h1, Except.ok none)
    else
      match applyLoopHeap aa ad ac ak h1 retId diff with
      | (h2, none) => (h2, Except.ok (some (freshId h)))
      | (h2, some e) => (h2, Except.error e)

/-- Total lookup used only to phrase characterizations at keys that are
known to be present (where getD's default is never reached). -/
def lookupD (d : Dict) (k : String) : PyVal :=
  (dlookup d k).getD (PyVal.pstr "")

/-- The Deleted-group instructions emitted under autoaccept: one Delete per
key, whose value field is the empty string orig_right that _ShowDiff passed
in (not the removed value). -/
def autoDels (A B : Dict) : List Instr :=
  (sortedOnlyLeft A B).map (fun k => ('d', k, PyVal.pstr ""))

/-- The Added-group instructions emitted under autoaccept: one Add per key
with B's value. -/
def autoAdds (A B : Dict) : List Instr :=
  (sortedOnlyRight A B).map (fun k => ('a', k, lookupD B k))

/-- The common-group instructions emitted under autoaccept: Keep with A's
value when the two values agree, else Edit with B's value. -/
def autoComs (A B : Dict) : List Instr :=
  (sortedCommon A B).map (fun k =>
    if dlookup A k = dlookup B k then ('k', k, lookupD A k)
    else ('e', k, lookupD B k))

/-- Action character a common key receives under auto-accept. -/
def comC (A B : Dict) (k : String) : Char :=
  if dlookup A k = dlookup B k then 'k' else 'e'

/-- Value a common key's instruction carries under auto-accept. -/
def comF (A B : Dict) (k : String) : PyVal :=
  if dlookup A k = dlookup B k then lookupD A k else lookupD B k

/-- The dictionary `a` of the module's self-test. -/
def exA : Dict := [("Alice", PyVal.pint 10), ("Bob", PyVal.pint 20), ("Charlie", PyVal.pint 30)]

/-- The dictionary `b` of the module's self-test. -/
def exB : Dict := [("Alice", PyVal.pint 15), ("Bob", PyVal.pint 20), ("David", PyVal.pint 40)]

/-- A one-entry dict used as a concrete input in counterexamples. -/
def cexA : Dict := [("x", PyVal.pint 1)]

/-- A key is in the key list exactly when lookup succeeds. -/
theorem mem_keys_iff : ∀ (d : Dict) (k : String), k ∈ keys d ↔ ∃ v, dlookup d k = some v
  | [], k => by simp [keys, dlookup]
  | (k', v) :: d, k => by
    simp only [keys, List.map_cons, List.mem_cons, dlookup]
    by_cases h : k' = k
    · subst h; simp
    · have h2 : ¬ k = k' := fun hq => h hq.symm
      simp only [h, if_false, h2, false_or]
      exact mem_keys_iff d k

/-- Lookup after Python del: the deleted key is gone, others unaffected. -/
theorem dlookup_ddel : ∀ (d : Dict) (k q : String),
    dlookup (ddel d k) q = if q = k then none else dlookup d q
  | [], k, q => by simp [ddel, dlookup]
  | (k', v) :: d, k, q => by
    rw [ddel]
    by_cases hk : k' = k
    · rw [if_pos hk, dlookup_ddel d k q, dlookup]
      by_cases hq : q = k
      · simp [hq]
      · have hk' : ¬ k' = q := fun h => hq (hk ▸ h).symm
        rw [if_neg hq, if_neg hq, if_neg hk']
    · rw [if_neg hk, dlookup, dlookup]
      by_cases hq : k' = q
      · have hqk : ¬ q = k := fun h => hk (hq.trans h)
        rw [if_pos hq, if_neg hqk, if_pos hq]
      · rw [if_neg hq, if_neg hq, dlookup_ddel d k q]

/-- Lookup after Python d[k] = v. -/
theorem dlookup_dset : ∀ (d : Dict) (k : String) (v : PyVal) (q : String),
    dlookup (dset d k v) q = if q = k then some v else dlookup d q
  | [], k, v, q => by
    rw [dset, dlookup, dlookup]
    by_cases hq : q = k
    · rw [if_pos hq, if_pos (hq ▸ rfl : k = q)]
    · rw [if_neg hq, if_neg (fun h => hq h.symm)]
      rfl
  | (k', w) :: d, k, v, q => by
    rw [dset]
    by_cases hk : k' = k
    · rw [if_pos hk, dlookup, dlookup]
      by_cases hq : q = k
      · rw [if_pos hq, if_pos (hq ▸ rfl : k = q)]
      · have hk' : ¬ k' = q := fun h => hq (hk ▸ h).symm
        rw [if_neg hq, if_neg (fun h : k = q => hq h.symm), if_neg hk']
    · rw [if_neg hk, dlookup, dlookup]
      by_cases hq : k' = q
      · have hqk : ¬ q = k := fun h => hk (hq.trans h)
        rw [if_pos hq, if_neg hqk, if_pos hq]
      · rw [if_neg hq, if_neg hq, dlookup_dset d k v q]

/-- Membership in the sorted Deleted group. -/
theorem mem_sortedOnlyLeft (A B : Dict) (k : String) :
    k ∈ sortedOnlyLeft A B ↔ k ∈ keys A ∧ ¬ k ∈ keys B := by
  simp [sortedOnlyLeft, sortStr, List.mem_insertionSort, List.mem_filter]

/-- Membership in the sorted Added group. -/
theorem mem_sortedOnlyRight (A B : Dict) (k : String) :
    k ∈ sortedOnlyRight A B ↔ k ∈ keys B ∧ ¬ k ∈ keys A := by
  simp [sortedOnlyRight, sortStr, List.mem_insertionSort, List.mem_filter]

/-- Membership in the sorted common group. -/
theorem mem_sortedCommon (A B : Dict) (k : String) :
    k ∈ sortedCommon A B ↔ k ∈ keys A ∧ k ∈ keys B := by
  simp [sortedCommon, sortStr, List.mem_insertionSort, List.mem_filter]

/-- The key comparison is total. -/
theorem charListLe_total : ∀ as bs : List Char,
    charListLe as bs = true ∨ charListLe bs as = true
  | [], _ => Or.inl rfl
  | _ :: _, [] => Or.inr rfl
  | a :: as, b :: bs => by
    rcases lt_trichotomy a b with h | h | h
    · left
      rw [charListLe, if_pos h]
    · subst h
      rcases charListLe_total as bs with ih | ih
      · left
        rw [charListLe, if_neg (lt_irrefl a), if_neg (lt_irrefl a)]
        exact ih
      · right
        rw [charListLe, if_neg (lt_irrefl a), if_neg (lt_irrefl a)]
        exact ih
    · right
      rw [charListLe, if_pos h]

/-- The key comparison is transitive. -/
theorem charListLe_trans : ∀ as bs cs : List Char,
    charListLe as bs = true → charListLe bs cs = true → charListLe as cs = true
  | [], _, _, _, _ => rfl
  | _ :: _, [], _, h1, _ => by
    rw [charListLe] at h1
    exact Bool.noConfusion h1
  | _ :: _, _ :: _, [], _, h2 => by
    rw [charListLe] at h2
    exact Bool.noConfusion h2
  | a :: as, b :: bs, c :: cs, h1, h2 => by
    rw [charListLe] at h1 h2 ⊢
    rcases lt_trichotomy a b with hab | hab | hab
    · rcases lt_trichotomy b c with hbc | hbc | hbc
      · rw [if_pos (lt_trans hab hbc)]
      · subst hbc
        rw [if_pos hab]
      · rw [if_neg (lt_asymm hbc), if_pos hbc] at h2
        exact Bool.noConfusion h2
    · subst hab
      rw [if_neg (lt_irrefl a), if_neg (lt_irrefl a)] at h1
      rcases lt_trichotomy a c with hac | hac | hac
      · rw [if_pos hac]
      · subst hac
        rw [if_neg (lt_irrefl a), if_neg (lt_irrefl a)] at h2 ⊢
        exact charListLe_trans as bs cs h1 h2
      · rw [if_neg (lt_asymm hac), if_pos hac] at h2
        exact Bool.noConfusion h2
    · rw [if_neg (lt_asymm hab), if_pos hab] at h1
      exact Bool.noConfusion h1

instance : IsTotal String (fun x y => strLe x y = true) :=
  ⟨fun a b => charListLe_total a.data b.data⟩

instance : IsTrans String (fun x y => strLe x y = true) :=
  ⟨fun a b c h1 h2 => charListLe_trans a.data b.data c.data h1 h2⟩

/-- Python sorted() output is sorted for the key comparison. -/
theorem sorted_sortStr (l : List String) :
    List.Sorted (fun x y : String => strLe x y = true) (sortStr l) :=
  List.sorted_insertionSort _ l

/-- Python sorted() output is a permutation of its input. -/
theorem perm_sortStr (l : List String) : List.Perm (sortStr l) l :=
  List.perm_insertionSort _ l

/-- Distinct keys survive filtering and sorting. -/
theorem nodup_sortStr_filter (l : List String) (p : String → Bool)
    (h : l.Nodup) : (sortStr (l.filter p)).Nodup :=
  (perm_sortStr (l.filter p)).nodup_iff.mpr (h.filter p)

/-- The Deleted group has distinct keys when A does. -/
theorem nodup_sortedOnlyLeft (A B : Dict) (hA : NodupKeys A) :
    (sortedOnlyLeft A B).Nodup :=
  nodup_sortStr_filter _ _ hA

/-- The Added group has distinct keys when B does. -/
theorem nodup_sortedOnlyRight (A B : Dict) (hB : NodupKeys B) :
    (sortedOnlyRight A B).Nodup :=
  nodup_sortStr_filter _ _ hB

/-- The common group has distinct keys when A does. -/
theorem nodup_sortedCommon (A B : Dict) (hA : NodupKeys A) :
    (sortedCommon A B).Nodup :=
  nodup_sortStr_filter _ _ hA

/-- If a resolver answers every key of a group with a definite instruction,
the group loop collects exactly those instructions in order. -/
theorem resolveGroup_map (f : String → Option (Option Instr)) (g : String → Instr) :
    ∀ ks : List String, (∀ k ∈ ks, f k = some (some (g k))) →
      resolveGroup f ks = some (ks.map g)
  | [], _ => rfl
  | k :: ks, h => by
    rw [resolveGroup, h k (List.mem_cons_self k ks),
      resolveGroup_map f g ks (fun k' hk' => h k' (List.mem_cons_of_mem k hk'))]
    rfl

/-- If every definite resolution carries its own key, the keys of a
terminating group loop's output form a sublist of the group. -/
theorem resolveGroup_keys_sublist (f : String → Option (Option Instr))
    (hf : ∀ k i, f k = some (some i) → i.2.1 = k) :
    ∀ (ks : List String) (l : List Instr), resolveGroup f ks = some l →
      (l.map (fun i => i.2.1)).Sublist ks
  | [], l, h => by
    rw [resolveGroup] at h
    cases h
    simp
  | k :: ks, l, h => by
    rw [resolveGroup] at h
    rcases hf1 : f k with _ | oi
    · rw [hf1] at h; cases h
    · rw [hf1] at h
      rcases hrec : resolveGroup f ks with _ | rest
      · rw [hrec] at h; cases h
      · rw [hrec] at h
        have hsub := resolveGroup_keys_sublist f hf ks rest hrec
        rcases oi with _ | i
        · simp only [Option.elim] at h
          cases h
          exact hsub.trans (List.sublist_cons_self k ks)
        · simp only [Option.elim] at h
          cases h
          rw [List.map_cons, hf k i hf1]
          exact List.Sublist.cons₂ k hsub

/-- Every definite resolution of _ShowRow is an instruction for the very
key being shown. -/
theorem showRowDecide_key (status : Status) (k : String) (l r : PyVal)
    (w nv : String) (i : Instr)
    (h : showRowDecide status k l r w nv = some (some i)) : i.2.1 = k := by
  cases status <;>
    simp only [showRowDecide] at h <;>
    split_ifs at h <;>
    simp only [Option.some.injEq] at h <;>
    first
      | exact Option.noConfusion h
      | (subst h; rfl)

/-- Auto-accept on a Deleted key: forced choice 'r', producing a Delete
whose value is the empty-string orig_right. -/
theorem resolveKey_auto_deleted (wf nf : String → String) (k : String) (v : PyVal) :
    resolveKey true wf nf Status.Deleted k v (PyVal.pstr "") =
      some (some ('d', k, PyVal.pstr "")) := rfl

/-- Auto-accept on an Added key: forced choice 'r', producing an Add with
B's value. -/
theorem resolveKey_auto_added (wf nf : String → String) (k : String) (v : PyVal) :
    resolveKey true wf nf Status.Added k (PyVal.pstr "") v =
      some (some ('a', k, v)) := rfl

/-- Auto-accept on an Unchanged key: forced choice 'c', producing a Keep
with the left value. -/
theorem resolveKey_auto_unchanged (wf nf : String → String) (k : String) (va vb : PyVal) :
    resolveKey true wf nf Status.Unchanged k va vb =
      some (some ('k', k, va)) := rfl

/-- Auto-accept on a Different key: forced choice 'r', producing an Edit
with the right value. -/
theorem resolveKey_auto_different (wf nf : String → String) (k : String) (va vb : PyVal) :
    resolveKey true wf nf Status.Different k va vb =
      some (some ('e', k, vb)) := rfl

/-- A Deleted-group row under auto-accept. -/
theorem delRow_auto (A : Dict) (wf nf : String → String) (k : String) (v : PyVal)
    (h : dlookup A k = some v) :
    delRow A true wf nf k = some (some ('d', k, PyVal.pstr "")) := by
  simp only [delRow, h]
  exact resolveKey_auto_deleted wf nf k v

/-- An Added-group row under auto-accept. -/
theorem addRow_auto (B : Dict) (wf nf : String → String) (k : String) (v : PyVal)
    (h : dlookup B k = some v) :
    addRow B true wf nf k = some (some ('a', k, v)) := by
  simp only [addRow, h]
  exact resolveKey_auto_added wf nf k v

/-- A common-group row under auto-accept. -/
theorem commonRow_auto (A B : Dict) (wf nf : String → String) (k : String)
    (va vb : PyVal) (ha : dlookup A k = some va) (hb : dlookup B k = some vb) :
    commonRow A B true wf nf k =
      some (some (if va = vb then ('k', k, va) else ('e', k, vb))) := by
  simp only [commonRow, ha, hb]
  by_cases h : va = vb
  · rw [if_pos h, if_pos h]
    exact resolveKey_auto_unchanged wf nf k va vb
  · rw [if_neg h, if_neg h]
    exact resolveKey_auto_different wf nf k va vb

/-- The auto-accept pass, in closed form: the three groups' instructions
concatenated. -/
theorem autoDiff_eq (A B : Dict) :
    AutoDiff A B = autoDels A B ++ autoAdds A B ++ autoComs A B := by
  unfold AutoDiff ShowDiffRun
  by_cases h0 : keys A = [] ∧ keys B = []
  · rw [if_pos h0]
    have h1 : sortedOnlyLeft A B = [] := by
      unfold sortedOnlyLeft
      rw [h0.1]
      rfl
    have h2 : sortedOnlyRight A B = [] := by
      unfold sortedOnlyRight
      rw [h0.2]
      rfl
    have h3 : sortedCommon A B = [] := by
      unfold sortedCommon
      rw [h0.1]
      rfl
    simp [autoDels, autoAdds, autoComs, h1, h2, h3]
  · rw [if_neg h0]
    have hdel : resolveGroup (delRow A true (fun _ => "") (fun _ => ""))
        (sortedOnlyLeft A B) = some (autoDels A B) := by
      rw [autoDels]
      apply resolveGroup_map
      intro k hk
      rcases (mem_keys_iff A k).1 ((mem_sortedOnlyLeft A B k).1 hk).1 with ⟨v, hv⟩
      exact delRow_auto A _ _ k v hv
    have hadd : resolveGroup (addRow B true (fun _ => "") (fun _ => ""))
        (sortedOnlyRight A B) = some (autoAdds A B) := by
      rw [autoAdds]
      apply resolveGroup_map
      intro k hk
      rcases (mem_keys_iff B k).1 ((mem_sortedOnlyRight A B k).1 hk).1 with ⟨v, hv⟩
      rw [addRow_auto B _ _ k v hv]
      simp [lookupD, hv]
    have hcom : resolveGroup (commonRow A B true (fun _ => "") (fun _ => ""))
        (sortedCommon A B) = some (autoComs A B) := by
      rw [autoComs]
      apply resolveGroup_map
      intro k hk
      rcases (mem_keys_iff A k).1 ((mem_sortedCommon A B k).1 hk).1 with ⟨va, ha⟩
      rcases (mem_keys_iff B k).1 ((mem_sortedCommon A B k).1 hk).2 with ⟨vb, hb⟩
      rw [commonRow_auto A B _ _ k va vb ha hb]
      by_cases hv : va = vb <;> simp [lookupD, ha, hb, hv]
    rw [hdel, hadd, hcom]
    rfl

/-- Lookup of an absent key. -/
theorem dlookup_eq_none (d : Dict) (k : String) (h : ¬ k ∈ keys d) :
    dlookup d k = none := by
  rcases hx : dlookup d k with _ | v
  · rfl
  · exact absurd ((mem_keys_iff d k).2 ⟨v, hx⟩) h

/-- Lookup of a present key in terms of the total lookup. -/
theorem dlookup_mem_some (d : Dict) (k : String) (h : k ∈ keys d) :
    dlookup d k = some (lookupD d k) := by
  rcases (mem_keys_iff d k).1 h with ⟨v, hv⟩
  rw [hv, lookupD, hv]
  rfl

/-- The common-group auto instructions, with the action and value spelled
out as functions of the key. -/
theorem autoComs_eq (A B : Dict) :
    autoComs A B = (sortedCommon A B).map (fun k => (comC A B k, k, comF A B k)) := by
  unfold autoComs comC comF
  congr 1
  funext k
  by_cases h : dlookup A k = dlookup B k <;> simp [h]

/-- The instruction loop over a concatenation: run the first part, then the
second from the state it reached (a raise in the first part aborts). -/
theorem applyList_append (aa ad ac ak : Bool) :
    ∀ (l1 : List Instr) (ret : Dict) (l2 : List Instr),
      applyList aa ad ac ak ret (l1 ++ l2) =
        match applyList aa ad ac ak ret l1 with
        | Except.ok r => applyList aa ad ac ak r l2
        | Except.error e => Except.error e
  | [], ret, l2 => rfl
  | d :: ds, ret, l2 => by
    rw [List.cons_append, applyList, applyList]
    cases applyStep aa ad ac ak ret d with
    | error e => rfl
    | ok r => exact applyList_append aa ad ac ak ds r l2

/-- Running the Delete instructions for a set of distinct, present keys
succeeds and removes exactly those keys. -/
theorem runDel : ∀ (ks : List String) (D : Dict),
    (∀ k ∈ ks, k ∈ keys D) → ks.Nodup →
    ∃ D2, applyList true true true true D
        (ks.map (fun k => ('d', k, PyVal.pstr ""))) = Except.ok D2
      ∧ ∀ q, dlookup D2 q = if q ∈ ks then none else dlookup D q
  | [], D, _, _ => ⟨D, rfl, fun q => by simp⟩
  | k :: ks, D, hmem, hnd => by
    have hk : k ∈ keys D := hmem k (List.mem_cons_self k ks)
    have step : applyStep true true true true D ('d', k, PyVal.pstr "") =
        Except.ok (ddel D k) := by
      simp [applyStep, hk]
    obtain ⟨D2, hrun, hlook⟩ := runDel ks (ddel D k)
      (by
        intro k' hk'
        have hne : ¬ k' = k := fun h => (List.nodup_cons.1 hnd).1 (h ▸ hk')
        rw [mem_keys_iff, dlookup_ddel, if_neg hne]
        exact (mem_keys_iff D k').1 (hmem k' (List.mem_cons_of_mem k hk')))
      (List.nodup_cons.1 hnd).2
    refine ⟨D2, ?_, ?_⟩
    · simp only [List.map_cons, applyList, step]
      exact hrun
    · intro q
      rw [hlook q, dlookup_ddel]
      by_cases hq : q = k
      · subst hq
        rw [if_neg (fun h => (List.nodup_cons.1 hnd).1 h), if_pos rfl,
          if_pos (List.mem_cons_self q ks)]
      · by_cases hq2 : q ∈ ks
        · rw [if_pos hq2, if_pos (List.mem_cons_of_mem k hq2)]
        · rw [if_neg hq2, if_neg hq, if_neg (by simp [hq, hq2])]

/-- One Add/Edit/Keep step under all-true flags: it succeeds, writing the
value exactly for Add and Edit. -/
theorem runSet_step (D : Dict) (ch : Char) (k : String) (v : PyVal)
    (hc : ch = 'a' ∨ ch = 'e' ∨ ch = 'k') :
    ∃ D1, applyStep true true true true D (ch, k, v) = Except.ok D1
      ∧ ∀ q, dlookup D1 q = if q = k ∧ ¬ ch = 'k' then some v else dlookup D q := by
  rcases hc with h | h | h <;> subst h
  · refine ⟨dset D k v, rfl, fun q => ?_⟩
    rw [dlookup_dset]
    by_cases hq : q = k
    · rw [if_pos hq, if_pos ⟨hq, by decide⟩]
    · rw [if_neg hq, if_neg (fun hh => hq hh.1)]
  · refine ⟨dset D k v, rfl, fun q => ?_⟩
    rw [dlookup_dset]
    by_cases hq : q = k
    · rw [if_pos hq, if_pos ⟨hq, by decide⟩]
    · rw [if_neg hq, if_neg (fun hh => hq hh.1)]
  · exact ⟨D, rfl, fun q => by rw [if_neg (fun hh => hh.2 rfl)]⟩

/-- Running a list of Add/Edit/Keep instructions over distinct keys
succeeds; Add/Edit keys end at the written value, Keep keys and all others
keep their previous binding. -/
theorem runSet : ∀ (ks : List String) (c : String → Char) (f : String → PyVal) (D : Dict),
    (∀ k ∈ ks, c k = 'a' ∨ c k = 'e' ∨ c k = 'k') → ks.Nodup →
    ∃ D2, applyList true true true true D
        (ks.map (fun k => (c k, k, f k))) = Except.ok D2
      ∧ ∀ q, dlookup D2 q =
          if q ∈ ks ∧ ¬ c q = 'k' then some (f q) else dlookup D q
  | [], _, _, D, _, _ => ⟨D, rfl, fun q => by simp⟩
  | k :: ks, c, f, D, hcodes, hnd => by
    obtain ⟨D1, hstep, hlook1⟩ :=
      runSet_step D (c k) k (f k) (hcodes k (List.mem_cons_self k ks))
    obtain ⟨D2, hrun, hlook2⟩ := runSet ks c f D1
      (fun k' hk' => hcodes k' (List.mem_cons_of_mem k hk'))
      (List.nodup_cons.1 hnd).2
    refine ⟨D2, ?_, ?_⟩
    · simp only [List.map_cons, applyList, hstep]
      exact hrun
    · intro q
      rw [hlook2 q]
      by_cases hqks : q ∈ ks
      · have hqk : ¬ q = k := fun h => (List.nodup_cons.1 hnd).1 (h ▸ hqks)
        by_cases hcq : c q = 'k'
        · rw [if_neg (fun hh => hh.2 hcq), if_neg (fun hh => hh.2 hcq), hlook1 q,
            if_neg (fun hh => hqk hh.1)]
        · rw [if_pos ⟨hqks, hcq⟩, if_pos ⟨List.mem_cons_of_mem k hqks, hcq⟩]
      · rw [if_neg (fun hh => hqks hh.1), hlook1 q]
        by_cases hqk : q = k
        · subst hqk
          by_cases hcq : c q = 'k'
          · rw [if_neg (fun hh => hh.2 hcq), if_neg (fun hh => hh.2 hcq)]
          · rw [if_pos ⟨rfl, hcq⟩, if_pos ⟨List.mem_cons_self q ks, hcq⟩]
        · rw [if_neg (fun hh => hqk hh.1), if_neg ?_]
          intro hh
          rcases List.mem_cons.1 hh.1 with h | h
          · exact hqk h
          · exact hqks h

/-- The auto-accept pass consists solely of Keep instructions exactly when
the two dicts are equal as mappings. -/
theorem allk_iff (A B : Dict) :
    (∀ i ∈ AutoDiff A B, i.1 = 'k') ↔ DictEquiv A B := by
  rw [autoDiff_eq]
  constructor
  · intro h
    have hAB : ∀ q, q ∈ keys A → q ∈ keys B := by
      intro q hqA
      by_contra hqB
      have hmem : ('d', q, PyVal.pstr "") ∈ autoDels A B :=
        List.mem_map_of_mem _ ((mem_sortedOnlyLeft A B q).2 ⟨hqA, hqB⟩)
      have hbad := h ('d', q, PyVal.pstr "")
        (List.mem_append.2 (Or.inl (List.mem_append.2 (Or.inl hmem))))
      exact (by decide : ¬ ('d' : Char) = 'k') hbad
    have hBA : ∀ q, q ∈ keys B → q ∈ keys A := by
      intro q hqB
      by_contra hqA
      have hmem : ('a', q, lookupD B q) ∈ autoAdds A B :=
        List.mem_map_of_mem _ ((mem_sortedOnlyRight A B q).2 ⟨hqB, hqA⟩)
      have hbad := h ('a', q, lookupD B q)
        (List.mem_append.2 (Or.inl (List.mem_append.2 (Or.inr hmem))))
      exact (by decide : ¬ ('a' : Char) = 'k') hbad
    intro q
    by_cases hqA : q ∈ keys A
    · have hqB := hAB q hqA
      by_contra hne
      have hmemC : (if dlookup A q = dlookup B q then ('k', q, lookupD A q)
          else ('e', q, lookupD B q)) ∈ autoComs A B :=
        List.mem_map_of_mem _ ((mem_sortedCommon A B q).2 ⟨hqA, hqB⟩)
      rw [if_neg hne] at hmemC
      have hbad := h ('e', q, lookupD B q) (List.mem_append.2 (Or.inr hmemC))
      exact (by decide : ¬ ('e' : Char) = 'k') hbad
    · have hqB : ¬ q ∈ keys B := fun hq => hqA (hBA q hq)
      rw [dlookup_eq_none A q hqA, dlookup_eq_none B q hqB]
  · intro hEq i hi
    rcases List.mem_append.1 hi with hi2 | hicom
    · rcases List.mem_append.1 hi2 with hidel | hiadd
      · exfalso
        rcases List.mem_map.1 hidel with ⟨k, hk, _⟩
        rcases (mem_sortedOnlyLeft A B k).1 hk with ⟨hkA, hkB⟩
        rcases (mem_keys_iff A k).1 hkA with ⟨v, hv⟩
        have hq := hEq k
        rw [hv, dlookup_eq_none B k hkB] at hq
        exact Option.noConfusion hq
      · exfalso
        rcases List.mem_map.1 hiadd with ⟨k, hk, _⟩
        rcases (mem_sortedOnlyRight A B k).1 hk with ⟨hkB, hkA⟩
        rcases (mem_keys_iff B k).1 hkB with ⟨v, hv⟩
        have hq := hEq k
        rw [hv, dlookup_eq_none A k hkA] at hq
        exact Option.noConfusion hq
    · rcases List.mem_map.1 hicom with ⟨k, hk, hik⟩
      rw [if_pos (hEq k)] at hik
      rw [← hik]

/-- Composition for the instruction loop. -/
theorem applyList_append_ok (aa ad ac ak : Bool) (ret mid : Dict)
    (l1 l2 : List Instr) (res : Except ApplyErr Dict)
    (h1 : applyList aa ad ac ak ret l1 = Except.ok mid)
    (h2 : applyList aa ad ac ak mid l2 = res) :
    applyList aa ad ac ak ret (l1 ++ l2) = res := by
  rw [applyList_append, h1]
  exact h2

/-- Running the auto-accept instruction list on A under all-true flags
succeeds and produces a dict equal to B as a mapping. -/
theorem applyAuto (A B : Dict) (hA : NodupKeys A) (hB : NodupKeys B) :
    ∃ C, applyList true true true true A (AutoDiff A B) = Except.ok C
      ∧ DictEquiv C B := by
  obtain ⟨A1, hrun1, hlook1⟩ := runDel (sortedOnlyLeft A B) A
    (fun k hk => ((mem_sortedOnlyLeft A B k).1 hk).1)
    (nodup_sortedOnlyLeft A B hA)
  obtain ⟨A2, hrun2, hlook2⟩ := runSet (sortedOnlyRight A B) (fun _ => 'a')
    (fun k => lookupD B k) A1 (fun k _ => Or.inl rfl)
    (nodup_sortedOnlyRight A B hB)
  obtain ⟨C, hrun3, hlook3⟩ := runSet (sortedCommon A B) (comC A B) (comF A B) A2
    (fun k _ => by
      unfold comC
      by_cases h : dlookup A k = dlookup B k
      · rw [if_pos h]
        exact Or.inr (Or.inr rfl)
      · rw [if_neg h]
        exact Or.inr (Or.inl rfl))
    (nodup_sortedCommon A B hA)
  refine ⟨C, ?_, ?_⟩
  · rw [autoDiff_eq]
    refine applyList_append_ok true true true true A A2 _ _ _ ?_ ?_
    · refine applyList_append_ok true true true true A A1 _ _ _ hrun1 hrun2
    · rw [autoComs_eq]
      exact hrun3
  · intro q
    rw [hlook3 q, hlook2 q, hlook1 q]
    by_cases hqA : q ∈ keys A <;> by_cases hqB : q ∈ keys B
    · have hqL : ¬ q ∈ sortedOnlyLeft A B :=
        fun h => ((mem_sortedOnlyLeft A B q).1 h).2 hqB
      have hqR : ¬ q ∈ sortedOnlyRight A B :=
        fun h => ((mem_sortedOnlyRight A B q).1 h).2 hqA
      have hqC : q ∈ sortedCommon A B := (mem_sortedCommon A B q).2 ⟨hqA, hqB⟩
      by_cases hv : dlookup A q = dlookup B q
      · have hcq : comC A B q = 'k' := by rw [comC, if_pos hv]
        rw [if_neg (fun hh => hh.2 hcq), if_neg (fun hh => hqR hh.1),
          if_neg hqL]
        exact hv
      · have hcq : comC A B q = 'e' := by rw [comC, if_neg hv]
        rw [if_pos ⟨hqC, fun hh => by rw [hcq] at hh; exact absurd hh (by decide)⟩]
        rw [comF, if_neg hv, dlookup_mem_some B q hqB]
    · have hqL : q ∈ sortedOnlyLeft A B := (mem_sortedOnlyLeft A B q).2 ⟨hqA, hqB⟩
      have hqR : ¬ q ∈ sortedOnlyRight A B :=
        fun h => hqB ((mem_sortedOnlyRight A B q).1 h).1
      have hqC : ¬ q ∈ sortedCommon A B :=
        fun h => hqB ((mem_sortedCommon A B q).1 h).2
      rw [if_neg (fun hh => hqC hh.1), if_neg (fun hh => hqR hh.1), if_pos hqL,
        dlookup_eq_none B q hqB]
    · have hqL : ¬ q ∈ sortedOnlyLeft A B :=
        fun h => hqA ((mem_sortedOnlyLeft A B q).1 h).1
      have hqR : q ∈ sortedOnlyRight A B := (mem_sortedOnlyRight A B q).2 ⟨hqB, hqA⟩
      have hqC : ¬ q ∈ sortedCommon A B :=
        fun h => hqA ((mem_sortedCommon A B q).1 h).1
      rw [if_neg (fun hh => hqC hh.1), if_pos ⟨hqR, by decide⟩,
        dlookup_mem_some B q hqB]
    · have hqL : ¬ q ∈ sortedOnlyLeft A B :=
        fun h => hqA ((mem_sortedOnlyLeft A B q).1 h).1
      have hqR : ¬ q ∈ sortedOnlyRight A B :=
        fun h => hqB ((mem_sortedOnlyRight A B q).1 h).1
      have hqC : ¬ q ∈ sortedCommon A B :=
        fun h => hqA ((mem_sortedCommon A B q).1 h).1
      rw [if_neg (fun hh => hqC hh.1), if_neg (fun hh => hqR hh.1), if_neg hqL,
        dlookup_eq_none A q hqA, dlookup_eq_none B q hqB]

/-- Claim C1 (amended): applying the auto-accept instruction list of
DictDiff(A,B) to A with all permission flags true yields a mapping equal to
B whenever A and B differ as mappings; when A already equals B as a mapping
every instruction is a Keep, so ApplyDiff returns the distinguished
unchanged signal (None) instead of a mapping (and A already equals B). -/
theorem applyDiff_autoDiff_correct (A B : Dict) (hA : NodupKeys A) (hB : NodupKeys B) :
    (DictEquiv A B → ApplyDiff A (AutoDiff A B) true true true true = Except.ok none)
    ∧ (¬ DictEquiv A B →
        ∃ C, ApplyDiff A (AutoDiff A B) true true true true = Except.ok (some C)
          ∧ DictEquiv C B) := by
  constructor
  · intro hEq
    have hall : (AutoDiff A B).all (fun d => decide (d.1 = 'k')) = true := by
      rw [List.all_eq_true]
      intro x hx
      rw [decide_eq_true_eq]
      exact (allk_iff A B).2 hEq x hx
    rw [ApplyDiff, if_pos hall]
  · intro hne
    have hall : ¬ (AutoDiff A B).all (fun d => decide (d.1 = 'k')) = true := by
      intro hcon
      refine hne ((allk_iff A B).1 ?_)
      intro i hi
      have hx := List.all_eq_true.1 hcon i hi
      rwa [decide_eq_true_eq] at hx
    obtain ⟨C, hrun, hequiv⟩ := applyAuto A B hA hB
    refine ⟨C, ?_, hequiv⟩
    rw [ApplyDiff, if_neg hall, hrun]
    rfl

/-- Claim C1 counterexample: with A = B = the one-entry dict x↦1 the
auto-accept instruction list is all Keep, and ApplyDiff returns the
unchanged signal None rather than any mapping equal to B. -/
theorem applyDiff_autoDiff_self_unchangedSignal :
    ApplyDiff cexA (AutoDiff cexA cexA) true true true true = Except.ok none
    ∧ ¬ (some cexA : Option Dict) = none := by
  constructor
  · rfl
  · decide

/-- Claim C1 witness: the amended theorem applied at the concrete dicts
x↦1 and the empty dict. -/
theorem applyDiff_autoDiff_correct_witness :
    (DictEquiv cexA [] → ApplyDiff cexA (AutoDiff cexA []) true true true true = Except.ok none)
    ∧ (¬ DictEquiv cexA [] →
        ∃ C, ApplyDiff cexA (AutoDiff cexA []) true true true true = Except.ok (some C)
          ∧ DictEquiv C []) :=
  applyDiff_autoDiff_correct cexA [] (by decide) (by decide)

/-- Claim C2: the auto-accept pass emits exactly one instruction per key of
keys(A) ∪ keys(B) — its length is the cardinality of the union — laid out
as the Deleted group ('d'), then the Added group ('a'), then the common
group ('k' when the values agree, 'e' otherwise), each group being the
sorted form of the respective key set. -/
theorem autoDiff_instruction_shape (A B : Dict) (hA : NodupKeys A) (hB : NodupKeys B) :
    (AutoDiff A B).map (fun i => (i.1, i.2.1))
      = (sortedOnlyLeft A B).map (fun k => ('d', k))
        ++ (sortedOnlyRight A B).map (fun k => ('a', k))
        ++ (sortedCommon A B).map (fun k =>
            ((if dlookup A k = dlookup B k then 'k' else 'e'), k))
    ∧ (AutoDiff A B).length = ((keys A).toFinset ∪ (keys B).toFinset).card
    ∧ (∀ k, k ∈ sortedOnlyLeft A B ↔ k ∈ keys A ∧ ¬ k ∈ keys B)
    ∧ (∀ k, k ∈ sortedOnlyRight A B ↔ k ∈ keys B ∧ ¬ k ∈ keys A)
    ∧ (∀ k, k ∈ sortedCommon A B ↔ k ∈ keys A ∧ k ∈ keys B)
    ∧ List.Sorted (fun x y : String => strLe x y = true) (sortedOnlyLeft A B)
    ∧ List.Sorted (fun x y : String => strLe x y = true) (sortedOnlyRight A B)
    ∧ List.Sorted (fun x y : String => strLe x y = true) (sortedCommon A B) := by
  refine ⟨?_, ?_, mem_sortedOnlyLeft A B, mem_sortedOnlyRight A B,
    mem_sortedCommon A B, sorted_sortStr _, sorted_sortStr _, sorted_sortStr _⟩
  · rw [autoDiff_eq]
    simp only [List.map_append, autoDels, autoAdds, autoComs, List.map_map]
    congr 2
    · funext k
      by_cases h : dlookup A k = dlookup B k <;> simp [h]
  · have e1 : ((keys A).filter (fun k => decide (¬ k ∈ keys B))).toFinset
        = (keys A).toFinset \ (keys B).toFinset := by
      ext q
      simp [List.mem_toFinset, List.mem_filter, Finset.mem_sdiff]
    have e2 : ((keys B).filter (fun k => decide (¬ k ∈ keys A))).toFinset
        = (keys B).toFinset \ (keys A).toFinset := by
      ext q
      simp [List.mem_toFinset, List.mem_filter, Finset.mem_sdiff]
    have e3 : ((keys A).filter (fun k => decide (k ∈ keys B))).toFinset
        = (keys A).toFinset ∩ (keys B).toFinset := by
      ext q
      simp [List.mem_toFinset, List.mem_filter, Finset.mem_inter]
    have l1 : (sortedOnlyLeft A B).length
        = ((keys A).toFinset \ (keys B).toFinset).card := by
      rw [sortedOnlyLeft, sortStr, List.length_insertionSort,
        ← List.toFinset_card_of_nodup (hA.filter _), e1]
    have l2 : (sortedOnlyRight A B).length
        = ((keys B).toFinset \ (keys A).toFinset).card := by
      rw [sortedOnlyRight, sortStr, List.length_insertionSort,
        ← List.toFinset_card_of_nodup (hB.filter _), e2]
    have l3 : (sortedCommon A B).length
        = ((keys A).toFinset ∩ (keys B).toFinset).card := by
      rw [sortedCommon, sortStr, List.length_insertionSort,
        ← List.toFinset_card_of_nodup (hA.filter _), e3]
    have hlen : (AutoDiff A B).length
        = (sortedOnlyLeft A B).length + (sortedOnlyRight A B).length
          + (sortedCommon A B).length := by
      rw [autoDiff_eq]
      simp [autoDels, autoAdds, autoComs, Nat.add_assoc]
    rw [hlen, l1, l2, l3,
      ← Finset.card_sdiff_add_card ((keys A).toFinset) ((keys B).toFinset),
      ← Finset.card_sdiff_add_card_inter ((keys B).toFinset) ((keys A).toFinset),
      Finset.inter_comm ((keys B).toFinset) ((keys A).toFinset)]
    ring

/-- Claim C2 witness: the shape theorem applied at the module's self-test
dicts. -/
theorem autoDiff_instruction_shape_witness :
    (AutoDiff exA exB).map (fun i => (i.1, i.2.1))
      = (sortedOnlyLeft exA exB).map (fun k => ('d', k))
        ++ (sortedOnlyRight exA exB).map (fun k => ('a', k))
        ++ (sortedCommon exA exB).map (fun k =>
            ((if dlookup exA k = dlookup exB k then 'k' else 'e'), k))
    ∧ (AutoDiff exA exB).length = ((keys exA).toFinset ∪ (keys exB).toFinset).card
    ∧ (∀ k, k ∈ sortedOnlyLeft exA exB ↔ k ∈ keys exA ∧ ¬ k ∈ keys exB)
    ∧ (∀ k, k ∈ sortedOnlyRight exA exB ↔ k ∈ keys exB ∧ ¬ k ∈ keys exA)
    ∧ (∀ k, k ∈ sortedCommon exA exB ↔ k ∈ keys exA ∧ k ∈ keys exB)
    ∧ List.Sorted (fun x y : String => strLe x y = true) (sortedOnlyLeft exA exB)
    ∧ List.Sorted (fun x y : String => strLe x y = true) (sortedOnlyRight exA exB)
    ∧ List.Sorted (fun x y : String => strLe x y = true) (sortedCommon exA exB) :=
  autoDiff_instruction_shape exA exB (by decide) (by decide)

/-- Claim C3 evaluation at the module's own self-test input: the Delete
instruction the code emits for Charlie carries the empty string "" (the
orig_right of the Deleted row), not the removed value 30; applying the list
still yields B, and the pure model leaves A untouched by construction. -/
theorem autoDiff_example_delete_value :
    AutoDiff exA exB =
      [('d', "Charlie", PyVal.pstr ""), ('a', "David", PyVal.pint 40),
       ('e', "Alice", PyVal.pint 15), ('k', "Bob", PyVal.pint 20)]
    ∧ ApplyDiff exA (AutoDiff exA exB) true true true true =
        Except.ok (some [("Alice", PyVal.pint 15), ("Bob", PyVal.pint 20),
          ("David", PyVal.pint 40)]) := by
  constructor
  · rfl
  · rfl

/-- An error surviving Except.map came from the underlying computation. -/
theorem except_map_eq_error (x : Except ApplyErr Dict) (e : ApplyErr)
    (h : x.map some = Except.error e) : x = Except.error e := by
  cases x with
  | error e2 =>
    simp only [Except.map] at h
    injection h with h2
    rw [h2]
  | ok a =>
    simp only [Except.map] at h
    exact Except.noConfusion h

/-- Under all-true permission flags, the only error the instruction loop
can raise over the four known action codes is KeyNotFound (from deleting
an absent key). -/
theorem applyList_allTrue_errors : ∀ (diff : List Instr) (ret : Dict) (e : ApplyErr),
    (∀ d ∈ diff, d.1 = 'k' ∨ d.1 = 'a' ∨ d.1 = 'd' ∨ d.1 = 'e') →
    applyList true true true true ret diff = Except.error e →
    ∃ q, e = ApplyErr.keyNotFound q
  | [], ret, e, _, h => Except.noConfusion h
  | d :: ds, ret, e, hcodes, h => by
    rw [applyList] at h
    have htail := fun d' hd' => hcodes d' (List.mem_cons_of_mem d hd')
    rcases d with ⟨c, k2, v2⟩
    rcases hcodes (c, k2, v2) (List.mem_cons_self (c, k2, v2) ds) with hc | hc | hc | hc <;>
      (have hc2 : c = _ := hc) <;> subst hc2
    · exact applyList_allTrue_errors ds ret e htail h
    · exact applyList_allTrue_errors ds _ e htail h
    · have hstep : applyStep true true true true ret ('d', k2, v2)
          = if k2 ∈ keys ret then Except.ok (ddel ret k2)
            else Except.error (ApplyErr.keyNotFound k2) := rfl
      rw [hstep] at h
      by_cases hm : k2 ∈ keys ret
      · rw [if_pos hm] at h
        exact applyList_allTrue_errors ds _ e htail h
      · rw [if_neg hm] at h
        have h2 : (Except.error (ApplyErr.keyNotFound k2) : Except ApplyErr Dict)
            = Except.error e := h
        injection h2 with h3
        exact ⟨k2, h3.symm⟩
    · exact applyList_allTrue_errors ds _ e htail h

/-- Claim C4 (amended): with a permission flag false, ApplyDiff raises
PermissionDenied on the first instruction when that instruction is of the
corresponding kind — except that a list consisting solely of Keep
instructions returns the unchanged signal before any flag is consulted, so
the Keep case additionally needs a non-Keep instruction later in the list.
With all four flags true, the only error ApplyDiff can raise over the four
known action codes is KeyNotFound (a Delete of an absent key); in
particular it never raises PermissionDenied. -/
theorem applyDiff_flags (src : Dict) (k : String) (v : PyVal) (rest diff : List Instr)
    (hcodes : ∀ d ∈ diff, d.1 = 'k' ∨ d.1 = 'a' ∨ d.1 = 'd' ∨ d.1 = 'e')
    (hrest : ¬ ∀ d ∈ rest, d.1 = 'k') :
    ApplyDiff src (('a', k, v) :: rest) false true true true
        = Except.error (ApplyErr.permissionDenied 'a')
    ∧ ApplyDiff src (('d', k, v) :: rest) true false true true
        = Except.error (ApplyErr.permissionDenied 'd')
    ∧ ApplyDiff src (('e', k, v) :: rest) true true false true
        = Except.error (ApplyErr.permissionDenied 'e')
    ∧ ApplyDiff src (('k', k, v) :: rest) true true true false
        = Except.error (ApplyErr.permissionDenied 'k')
    ∧ (∀ e, ApplyDiff src diff true true true true = Except.error e
        → ∃ q, e = ApplyErr.keyNotFound q) := by
  have hrall : ¬ rest.all (fun d => decide (d.1 = 'k')) = true := by
    intro hcon
    refine hrest (fun d hd => ?_)
    have hx := List.all_eq_true.1 hcon d hd
    rwa [decide_eq_true_eq] at hx
  have hfa : (('a', k, v) :: rest).all (fun d => decide (d.1 = 'k')) = false := rfl
  have hfd : (('d', k, v) :: rest).all (fun d => decide (d.1 = 'k')) = false := rfl
  have hfe : (('e', k, v) :: rest).all (fun d => decide (d.1 = 'k')) = false := rfl
  refine ⟨?_, ?_, ?_, ?_, ?_⟩
  · rw [ApplyDiff, if_neg (fun hcon => Bool.false_ne_true (hfa ▸ hcon))]
    rfl
  · rw [ApplyDiff, if_neg (fun hcon => Bool.false_ne_true (hfd ▸ hcon))]
    rfl
  · rw [ApplyDiff, if_neg (fun hcon => Bool.false_ne_true (hfe ▸ hcon))]
    rfl
  · have hcond : (('k', k, v) :: rest).all (fun d => decide (d.1 = 'k'))
        = rest.all (fun d => decide (d.1 = 'k')) := rfl
    rw [ApplyDiff, if_neg (fun hcon => hrall (by rw [hcond] at hcon; exact hcon))]
    rfl
  · intro e he
    rw [ApplyDiff] at he
    by_cases hall : diff.all (fun d => decide (d.1 = 'k')) = true
    · rw [if_pos hall] at he
      exact Except.noConfusion he
    · rw [if_neg hall] at he
      exact applyList_allTrue_errors diff src e hcodes (except_map_eq_error _ e he)

/-- Claim C4 counterexample: a list containing a Keep with allowKeep=false
returns the unchanged signal instead of raising (the all-Keep short circuit
precedes every permission check), and with all four flags true a Delete of
an absent key raises KeyNotFound, so all-true flags do not make ApplyDiff
total on well-formed action codes. -/
theorem applyDiff_flags_cex :
    ApplyDiff ([] : Dict) [('k', "x", PyVal.pint 0)] true true true false = Except.ok none
    ∧ ApplyDiff ([] : Dict) [('d', "x", PyVal.pint 0)] true true true true
        = Except.error (ApplyErr.keyNotFound "x") :=
  ⟨rfl, rfl⟩

/-- Claim C4 witness: the amended flag theorem applied at concrete inputs. -/
theorem applyDiff_flags_witness :
    ApplyDiff ([] : Dict) (('a', "x", PyVal.pint 0) :: [('e', "y", PyVal.pint 1)]) false true true true
        = Except.error (ApplyErr.permissionDenied 'a')
    ∧ ApplyDiff ([] : Dict) (('d', "x", PyVal.pint 0) :: [('e', "y", PyVal.pint 1)]) true false true true
        = Except.error (ApplyErr.permissionDenied 'd')
    ∧ ApplyDiff ([] : Dict) (('e', "x", PyVal.pint 0) :: [('e', "y", PyVal.pint 1)]) true true false true
        = Except.error (ApplyErr.permissionDenied 'e')
    ∧ ApplyDiff ([] : Dict) (('k', "x", PyVal.pint 0) :: [('e', "y", PyVal.pint 1)]) true true true false
        = Except.error (ApplyErr.permissionDenied 'k')
    ∧ (∀ e, ApplyDiff ([] : Dict) [('d', "x", PyVal.pint 0)] true true true true = Except.error e
        → ∃ q, e = ApplyErr.keyNotFound q) :=
  applyDiff_flags [] "x" (PyVal.pint 0) [('e', "y", PyVal.pint 1)]
    [('d', "x", PyVal.pint 0)] (by decide) (by decide)

/-- Claim C6: an instruction list consisting solely of Keep instructions
makes ApplyDiff return the distinguished unchanged signal (None), for every
source dict and every flag setting, before any permission flag is checked. -/
theorem applyDiff_all_keep_signal (src : Dict) (diff : List Instr)
    (aa ad ac ak : Bool) (h : ∀ d ∈ diff, d.1 = 'k') :
    ApplyDiff src diff aa ad ac ak = Except.ok none := by
  rw [ApplyDiff, if_pos]
  rw [List.all_eq_true]
  intro d hd
  rw [decide_eq_true_eq]
  exact h d hd

/-- Claim C6 witness: an all-Keep list with every flag false still returns
the unchanged signal. -/
theorem applyDiff_all_keep_signal_witness :
    ApplyDiff cexA [('k', "x", PyVal.pint 1)] false false false false = Except.ok none :=
  applyDiff_all_keep_signal cexA [('k', "x", PyVal.pint 1)] false false false false (by decide)

/-- Claim C9: the constructor defaults None (on either side) to the empty
dict, accepts dicts as given, and rejects any other argument with the
first-argument TypeError checked before the second-argument one; an error
means no object is constructed. -/
theorem dictDiffInit_typecheck :
    DictDiffInit PyArg.pynone PyArg.pynone = Except.ok ([], [])
    ∧ (∀ da db : Dict, DictDiffInit (PyArg.pydict da) (PyArg.pydict db) = Except.ok (da, db))
    ∧ (∀ da : Dict, DictDiffInit (PyArg.pydict da) PyArg.pynone = Except.ok (da, []))
    ∧ (∀ db : Dict, DictDiffInit PyArg.pynone (PyArg.pydict db) = Except.ok ([], db))
    ∧ (∀ b : PyArg, DictDiffInit PyArg.other b = Except.error InitErr.first)
    ∧ DictDiffInit PyArg.pynone PyArg.other = Except.error InitErr.second
    ∧ (∀ da : Dict, DictDiffInit (PyArg.pydict da) PyArg.other = Except.error InitErr.second) :=
  ⟨rfl, fun _ _ => rfl, fun _ => rfl, fun _ => rfl, fun _ => rfl, rfl, fun _ => rfl⟩

/-- Claim C10: WasChanged is true exactly when some instruction is not a
Keep, and ApplyDiff returns the unchanged signal exactly when WasChanged is
false — including the empty list, for every flag setting. -/
theorem wasChanged_iff_unchanged_signal :
    (∀ diff : List Instr, WasChanged diff = true ↔ ∃ i ∈ diff, ¬ i.1 = 'k')
    ∧ (∀ (src : Dict) (diff : List Instr) (aa ad ac ak : Bool),
        ApplyDiff src diff aa ad ac ak = Except.ok none ↔ WasChanged diff = false)
    ∧ (∀ (src : Dict) (aa ad ac ak : Bool),
        ApplyDiff src [] aa ad ac ak = Except.ok none) := by
  have hiff : ∀ diff : List Instr, WasChanged diff = true ↔ ∃ i ∈ diff, ¬ i.1 = 'k' := by
    intro diff
    rw [WasChanged, List.any_eq_true]
    constructor
    · rintro ⟨x, hx, hpx⟩
      rw [decide_eq_true_eq] at hpx
      exact ⟨x, hx, hpx⟩
    · rintro ⟨x, hx, hpx⟩
      refine ⟨x, hx, ?_⟩
      rw [decide_eq_true_eq]
      exact hpx
  refine ⟨hiff, ?_, fun src aa ad ac ak => rfl⟩
  intro src diff aa ad ac ak
  have hlink : WasChanged diff = false ↔ diff.all (fun d => decide (d.1 = 'k')) = true := by
    constructor
    · intro h
      rw [List.all_eq_true]
      intro d hd
      rw [decide_eq_true_eq]
      by_contra hne
      have hx : WasChanged diff = true := (hiff diff).2 ⟨d, hd, hne⟩
      rw [h] at hx
      exact Bool.noConfusion hx
    · intro h
      cases hwc : WasChanged diff
      · rfl
      · exfalso
        rcases (hiff diff).1 hwc with ⟨i, hi, hne⟩
        have hx := List.all_eq_true.1 h i hi
        rw [decide_eq_true_eq] at hx
        exact hne hx
  constructor
  · intro h
    by_cases hall : diff.all (fun d => decide (d.1 = 'k')) = true
    · exact hlink.2 hall
    · exfalso
      rw [ApplyDiff, if_neg hall] at h
      cases hres : applyList aa ad ac ak src diff with
      | error e =>
        rw [hres] at h
        simp only [Except.map] at h
        exact Except.noConfusion h
      | ok r =>
        rw [hres] at h
        simp only [Except.map] at h
        injection h with h2
        exact Option.noConfusion h2
  · intro h
    rw [ApplyDiff, if_pos (hlink.1 h)]

/-- Keys of a delete-row resolution. -/
theorem delRow_key (A : Dict) (auto : Bool) (wf nf : String → String)
    (k : String) (i : Instr) (h : delRow A auto wf nf k = some (some i)) :
    i.2.1 = k := by
  rw [delRow] at h
  cases hl : dlookup A k with
  | none =>
    rw [hl] at h
    exact Option.noConfusion h
  | some v =>
    rw [hl] at h
    exact showRowDecide_key Status.Deleted k v (PyVal.pstr "") _ _ i h

/-- Keys of an add-row resolution. -/
theorem addRow_key (B : Dict) (auto : Bool) (wf nf : String → String)
    (k : String) (i : Instr) (h : addRow B auto wf nf k = some (some i)) :
    i.2.1 = k := by
  rw [addRow] at h
  cases hl : dlookup B k with
  | none =>
    rw [hl] at h
    exact Option.noConfusion h
  | some v =>
    rw [hl] at h
    exact showRowDecide_key Status.Added k (PyVal.pstr "") v _ _ i h

/-- Keys of a common-row resolution. -/
theorem commonRow_key (A B : Dict) (auto : Bool) (wf nf : String → String)
    (k : String) (i : Instr) (h : commonRow A B auto wf nf k = some (some i)) :
    i.2.1 = k := by
  rw [commonRow] at h
  cases ha : dlookup A k with
  | none =>
    rw [ha] at h
    exact Option.noConfusion h
  | some va =>
    cases hb : dlookup B k with
    | none =>
      rw [ha, hb] at h
      exact Option.noConfusion h
    | some vb =>
      rw [ha, hb] at h
      exact showRowDecide_key _ k va vb _ _ i h

/-- Claim C5: resolving an Added key with the operator input "l" (keep
current/left) produces no instruction at all — neither a Keep nor a Delete
— and, consequently, any terminating interactive pass emits at most one
instruction per key, all keys drawn from keys(A) ∪ keys(B). -/
theorem added_keepLeft_no_instruction (A B : Dict) (wf nf : String → String)
    (l : List Instr) (hA : NodupKeys A) (hB : NodupKeys B)
    (h : ShowDiffRun A B false wf nf = some l) :
    (∀ (k : String) (lv rv : PyVal) (nv : String),
        showRowDecide Status.Added k lv rv "l" nv = some none)
    ∧ (l.map (fun i => i.2.1)).Nodup
    ∧ (∀ i ∈ l, i.2.1 ∈ keys A ∨ i.2.1 ∈ keys B) := by
  refine ⟨fun k lv rv nv => rfl, ?_⟩
  rw [ShowDiffRun] at h
  by_cases h0 : keys A = [] ∧ keys B = []
  · rw [if_pos h0] at h
    injection h with h2
    subst h2
    exact ⟨List.nodup_nil, fun i hi => absurd hi (List.not_mem_nil i)⟩
  · rw [if_neg h0] at h
    rcases hd : resolveGroup (delRow A false wf nf) (sortedOnlyLeft A B) with _ | ds
    · rw [hd] at h
      exact Option.noConfusion h
    rcases ha2 : resolveGroup (addRow B false wf nf) (sortedOnlyRight A B) with _ | adds
    · rw [hd, ha2] at h
      exact Option.noConfusion h
    rcases hc2 : resolveGroup (commonRow A B false wf nf) (sortedCommon A B) with _ | cs
    · rw [hd, ha2, hc2] at h
      exact Option.noConfusion h
    rw [hd, ha2, hc2] at h
    injection h with h2
    subst h2
    have s1 := resolveGroup_keys_sublist _ (delRow_key A false wf nf) _ _ hd
    have s2 := resolveGroup_keys_sublist _ (addRow_key B false wf nf) _ _ ha2
    have s3 := resolveGroup_keys_sublist _ (commonRow_key A B false wf nf) _ _ hc2
    have m1 : ∀ x ∈ ds.map (fun i => i.2.1), x ∈ keys A ∧ ¬ x ∈ keys B :=
      fun x hx => (mem_sortedOnlyLeft A B x).1 (s1.subset hx)
    have m2 : ∀ x ∈ adds.map (fun i => i.2.1), x ∈ keys B ∧ ¬ x ∈ keys A :=
      fun x hx => (mem_sortedOnlyRight A B x).1 (s2.subset hx)
    have m3 : ∀ x ∈ cs.map (fun i => i.2.1), x ∈ keys A ∧ x ∈ keys B :=
      fun x hx => (mem_sortedCommon A B x).1 (s3.subset hx)
    constructor
    · rw [List.map_append, List.map_append]
      refine List.Nodup.append (List.Nodup.append ?_ ?_ ?_) ?_ ?_
      · exact (nodup_sortedOnlyLeft A B hA).sublist s1
      · exact (nodup_sortedOnlyRight A B hB).sublist s2
      · intro x hx1 hx2
        exact (m1 x hx1).2 (m2 x hx2).1
      · exact (nodup_sortedCommon A B hA).sublist s3
      · intro x hx1 hx3
        rcases List.mem_append.1 hx1 with hx | hx
        · exact (m1 x hx).2 (m3 x hx3).2
        · exact (m2 x hx).2 (m3 x hx3).1
    · intro i hi
      rcases List.mem_append.1 hi with hi2 | hic
      · rcases List.mem_append.1 hi2 with hid | hia
        · exact Or.inl (m1 _ (List.mem_map_of_mem _ hid)).1
        · exact Or.inr (m2 _ (List.mem_map_of_mem _ hia)).1
      · exact Or.inl (m3 _ (List.mem_map_of_mem _ hic)).1

/-- Claim C5 witness: an interactive pass over x↦1 and x↦1,y↦2 where the
operator answers "l" for the Added key y and "c" for the Unchanged key x:
the pass returns only the Keep for x, y is silently dropped. -/
theorem added_keepLeft_no_instruction_witness :
    ((∀ (k : String) (lv rv : PyVal) (nv : String),
        showRowDecide Status.Added k lv rv "l" nv = some none)
    ∧ (([('k', "x", PyVal.pint 1)] : List Instr).map (fun i => i.2.1)).Nodup
    ∧ (∀ i ∈ ([('k', "x", PyVal.pint 1)] : List Instr),
        i.2.1 ∈ keys [("x", PyVal.pint 1)]
          ∨ i.2.1 ∈ keys [("x", PyVal.pint 1), ("y", PyVal.pint 2)])) :=
  added_keepLeft_no_instruction [("x", PyVal.pint 1)]
    [("x", PyVal.pint 1), ("y", PyVal.pint 2)]
    (fun k => if k = "y" then "l" else "c") (fun _ => "")
    [('k', "x", PyVal.pint 1)] (by decide) (by decide) (by rfl)

/-- Claim C7: a Delete whose key is absent from the working copy fails with
KeyNotFound (allowDelete being true), any erroring step aborts the rest of
the instruction list, and this lifts to ApplyDiff: once a prefix has run
and the next instruction raises, the instructions after it are never
processed and the error is the result. -/
theorem applyDiff_delete_missing_aborts (aa ad ac ak : Bool) (ret : Dict)
    (k : String) (v : PyVal) (ds : List Instr) (hk : ¬ k ∈ keys ret) :
    applyList aa true ac ak ret (('d', k, v) :: ds)
        = Except.error (ApplyErr.keyNotFound k)
    ∧ (∀ (d : Instr) (rest : List Instr) (e : ApplyErr),
        applyStep aa ad ac ak ret d = Except.error e →
        applyList aa ad ac ak ret (d :: rest) = Except.error e)
    ∧ (∀ (src r : Dict) (pre post : List Instr) (d : Instr) (e : ApplyErr),
        ¬ ((pre ++ d :: post).all (fun x => decide (x.1 = 'k'))) = true →
        applyList aa ad ac ak src pre = Except.ok r →
        applyStep aa ad ac ak r d = Except.error e →
        ApplyDiff src (pre ++ d :: post) aa ad ac ak = Except.error e) := by
  refine ⟨?_, ?_, ?_⟩
  · have hstep : applyStep aa true ac ak ret ('d', k, v)
        = if k ∈ keys ret then Except.ok (ddel ret k)
          else Except.error (ApplyErr.keyNotFound k) := rfl
    rw [applyList, hstep, if_neg hk]
  · intro d rest e hstep
    rw [applyList, hstep]
  · intro src r pre post d e hall hpre hstep
    rw [ApplyDiff, if_neg hall]
    have hrun : applyList aa ad ac ak src (pre ++ d :: post) = Except.error e := by
      rw [applyList_append, hpre]
      show applyList aa ad ac ak r (d :: post) = Except.error e
      rw [applyList, hstep]
    rw [hrun]
    rfl

/-- Claim C7 witness: deleting the absent key x from the empty dict raises
KeyNotFound, and in a two-instruction list the error from the first
instruction is the final result — the Add after it is never applied. -/
theorem applyDiff_delete_missing_aborts_witness :
    applyList true true true true ([] : Dict) [('d', "x", PyVal.pint 0)]
        = Except.error (ApplyErr.keyNotFound "x")
    ∧ ApplyDiff ([] : Dict) [('d', "x", PyVal.pint 0), ('a', "y", PyVal.pint 1)]
        true true true true = Except.error (ApplyErr.keyNotFound "x") := by
  have h := applyDiff_delete_missing_aborts true true true true ([] : Dict) "x"
    (PyVal.pint 0) [] (by decide)
  refine ⟨h.1, ?_⟩
  exact h.2.2 [] [] [] [('a', "y", PyVal.pint 1)] ('d', "x", PyVal.pint 0)
    (ApplyErr.keyNotFound "x") (by decide) rfl rfl

/-- Identities present in the heap are bounded by maxId. -/
theorem heapGet_le_maxId : ∀ (h : Heap) (i : Nat) (d : Dict),
    heapGet h i = some d → i ≤ maxId h
  | [], _, _, hh => Option.noConfusion hh
  | (j, dj) :: t, i, d, hh => by
    rw [heapGet] at hh
    show i ≤ max j (maxId t)
    by_cases hj : j = i
    · subst hj
      exact le_max_left j (maxId t)
    · rw [if_neg hj] at hh
      exact le_trans (heapGet_le_maxId t i d hh) (le_max_right j (maxId t))

/-- Writing one heap cell leaves every other cell unchanged. -/
theorem heapGet_heapSet_ne : ∀ (h : Heap) (j : Nat) (d : Dict) (i : Nat), ¬ i = j →
    heapGet (heapSet h j d) i = heapGet h i
  | [], _, _, _, _ => rfl
  | (j', d') :: t, j, d, i, hne => by
    show heapGet ((if j' = j then (j, d) else (j', d')) :: heapSet t j d) i
      = heapGet ((j', d') :: t) i
    by_cases hj : j' = j
    · rw [if_pos hj, heapGet, heapGet,
        if_neg (fun hh => hne hh.symm),
        if_neg (fun hh : j' = i => hne (hj ▸ hh).symm)]
      exact heapGet_heapSet_ne t j d i hne
    · rw [if_neg hj, heapGet, heapGet]
      by_cases hji : j' = i
      · rw [if_pos hji, if_pos hji]
      · rw [if_neg hji, if_neg hji]
        exact heapGet_heapSet_ne t j d i hne

/-- The apply loop writes only the working copy's cell. -/
theorem applyLoopHeap_frame : ∀ (diff : List Instr) (aa ad ac ak : Bool)
    (h : Heap) (retId i : Nat), ¬ i = retId →
    heapGet (applyLoopHeap aa ad ac ak h retId diff).1 i = heapGet h i
  | [], _, _, _, _, _, _, _, _ => rfl
  | d :: ds, aa, ad, ac, ak, h, retId, i, hne => by
    rw [applyLoopHeap]
    cases applyStep aa ad ac ak ((heapGet h retId).getD []) d with
    | error e => rfl
    | ok r =>
      rw [applyLoopHeap_frame ds aa ad ac ak (heapSet h retId r) retId i hne,
        heapGet_heapSet_ne h retId r i hne]

/-- Claim C8: ApplyDiff never mutates its source object: whatever the
instruction list, flags, and outcome (modified copy, unchanged signal, or
an error abort), the heap cell holding src is unchanged afterwards — every
write of the loop goes to the freshly allocated working copy. -/
theorem applyDiffHeap_source_unmutated (h : Heap) (srcId : Nat) (diff : List Instr)
    (aa ad ac ak : Bool) (src : Dict) (hs : heapGet h srcId = some src) :
    heapGet (ApplyDiffHeap h srcId diff aa ad ac ak).1 srcId = some src := by
  have hle : srcId ≤ maxId h := heapGet_le_maxId h srcId src hs
  have hne : ¬ srcId = freshId h := by
    rw [freshId]
    omega
  have hsrc1 : heapGet ((freshId h, src) :: h) srcId = some src := by
    rw [heapGet, if_neg (fun hh => hne hh.symm)]
    exact hs
  simp only [ApplyDiffHeap, hs]
  by_cases hall : diff.all (fun d => decide (d.1 = 'k')) = true
  · rw [if_pos hall]
    exact hsrc1
  · rw [if_neg hall]
    have hframe := applyLoopHeap_frame diff aa ad ac ak ((freshId h, src) :: h)
      (freshId h) srcId hne
    rw [hsrc1] at hframe
    rcases hloop : applyLoopHeap aa ad ac ak ((freshId h, src) :: h) (freshId h) diff
      with ⟨h2, oe⟩
    rw [hloop] at hframe
    cases oe with
    | none => exact hframe
    | some e => exact hframe

/-- Claim C8 witness: applying an Add to the object at identity 0 leaves
that object's contents intact. -/
theorem applyDiffHeap_source_unmutated_witness :
    heapGet (ApplyDiffHeap [(0, cexA)] 0 [('a', "y", PyVal.pint 2)]
      true true true true).1 0 = some cexA :=
  applyDiffHeap_source_unmutated [(0, cexA)] 0 [('a', "y", PyVal.pint 2)]
    true true true true cexA rfl

/-- The executable key comparison agrees with lexicographic order on char
lists. -/
theorem charListLe_iff_lex : ∀ as bs : List Char,
    charListLe as bs = true ↔ (as = bs ∨ List.Lex (fun x y : Char => x < y) as bs)
  | [], [] => iff_of_true rfl (Or.inl rfl)
  | [], _ :: _ => iff_of_true rfl (Or.inr List.Lex.nil)
  | _ :: _, [] => by
    refine iff_of_false (fun h => Bool.noConfusion h) ?_
    rintro (h | h)
    · exact List.noConfusion h
    · cases h
  | a :: as, b :: bs => by
    rcases lt_trichotomy a b with hlt | heq | hgt
    · refine iff_of_true ?_ (Or.inr (List.Lex.rel hlt))
      rw [charListLe, if_pos hlt]
    · subst heq
      rw [charListLe, if_neg (lt_irrefl a), if_neg (lt_irrefl a)]
      rw [charListLe_iff_lex as bs]
      constructor
      · rintro (h | h)
        · exact Or.inl (h ▸ rfl)
        · exact Or.inr (List.Lex.cons h)
      · rintro (h | h)
        · injection h with h1 h2
          exact Or.inl h2
        · cases h with
          | cons h2 => exact Or.inr h2
          | rel h2 => exact absurd h2 (lt_irrefl a)
    · refine iff_of_false ?_ ?_
      · rw [charListLe, if_neg (lt_asymm hgt), if_pos hgt]
        exact fun h => Bool.noConfusion h
      · rintro (h | h)
        · injection h with h1 h2
          exact absurd (h1 ▸ hgt) (lt_irrefl a)
        · cases h with
          | cons h2 => exact absurd hgt (lt_irrefl a)
          | rel h2 => exact absurd h2 (lt_asymm hgt)
  termination_by as _ => as.length

/-- The executable key comparison is exactly the ambient string order, so
the per-group sortedness statements are sortedness for String's order. -/
theorem strLe_le (a b : String) : strLe a b = true ↔ a ≤ b := by
  rw [String.le_iff_toList_le]
  exact (charListLe_iff_lex a.data b.data).trans Iff.rfl
